import Mathlib

/-
Verification of the event-driven JSON document builder from
src/src/example/pegtl/json_build_two.cpp.

The builder reacts to structural match events raised by the PEGTL grammar
engine while it recognizes a JSON document, assembling an in-memory value
tree.  The mutable parse-run state (examples::json_state) holds a result
slot and three stacks; one action per grammar production mutates it.

Shallow embedding conventions:
 - std::shared_ptr< json_base > is embedded as Option JsonValue (a null
   pointer is none); moving from a shared_ptr leaves it null, so a moved
   field becomes none.
 - std::vector used as a stack via push_back / back / pop_back is a List
   whose head is the stack top.
 - std::map assignment through operator[] is mapInsert below.
 - Calling back() on an empty vector violates the container precondition;
   a handler doing so is embedded as returning none (the error branch).
 - long double is embedded as an exact rational; numeric rounding of the
   host float type is outside the scope of this development, matching the
   specification, which makes no precision guarantee beyond best effort.
-/

namespace Examples

/-- Document values.  Modelled from the spec: the Value Model of
json_classes.hpp is not under src/; per spec section 3 it is a closed
polymorphic type over Null, Boolean, Number (high-precision floating
value), String (owned text), Array (ordered children, held through
nullable owning pointers), and Object (text-keyed mapping with unique
keys). -/
inductive JsonValue where
  | null
  | boolean (b : Bool)
  | number (v : Rat)
  | string (s : String)
  | array (data : List (Option JsonValue))
  | object (data : List (String × Option JsonValue))

/-- Insert-or-assign into the Object mapping.  Modelled from the spec:
the Object container of json_classes.hpp is not under src/; per spec
section 3 it is a mapping with unique keys where inserting a key that is
already present replaces the earlier value (the semantics of std::map
assignment through operator[], used by the object-element action). -/
def mapInsert (m : List (String × Option JsonValue)) (k : String)
    (v : Option JsonValue) : List (String × Option JsonValue) :=
  match m with
  | [] => [(k, v)]
  | (k0, v0) :: rest =>
    if k0 = k then (k0, v) :: rest else (k0, v0) :: mapInsert rest k v

/-- Lookup in the Object mapping (std::map::find). -/
def mapLookup (k : String) :
    List (String × Option JsonValue) → Option (Option JsonValue)
  | [] => none
  | (k0, v0) :: rest => if k0 = k then some v0 else mapLookup k rest

/-- Embeds examples::json_state (json_build_two.cpp lines 24-30): the
result slot and the pending-key, array-builder and object-builder
stacks.  A builder on a stack is embedded by its data member. -/
structure json_state where
  result : Option JsonValue
  keys : List String
  arrays : List (List (Option JsonValue))
  objects : List (List (String × Option JsonValue))

/-- The default-constructed state at the start of a run (main, line 192). -/
def initState : json_state := ⟨none, [], [], []⟩

/-- Decimal digit accumulation for the embedded numeric parse. -/
def digitsToNat (ds : List Char) : Nat :=
  ds.foldl (fun a c => 10 * a + (c.toNat - 48)) 0

/-- Split a leading run of decimal digits. -/
def takeDigits (cs : List Char) : List Char × List Char :=
  (cs.takeWhile Char.isDigit, cs.dropWhile Char.isDigit)

/-- Optional sign character; true means negative. -/
def parseSign : List Char → Bool × List Char
  | '-' :: cs => (true, cs)
  | '+' :: cs => (false, cs)
  | cs => (false, cs)

def isWsChar (c : Char) : Bool :=
  c = ' ' || c = '\t' || c = '\n' || c = '\r'

/-- Embeds the numeric conversion performed by
action< pegtl::json::number >::apply (json_build_two.cpp lines 66-78):
the matched text is streamed into a long double via formatted extraction
(std::stringstream), which skips leading whitespace, consumes the longest
prefix of the form sign digits [. digits] [e sign digits], and yields 0
when no conversion is possible.  This is a lenient best-effort parse, not
a JSON-number validator.  The value is embedded exactly as a rational,
built from machine integers with a single final division. -/
def parseLongDouble (s : String) : Rat :=
  let cs := s.data.dropWhile isWsChar
  let (neg, cs1) := parseSign cs
  let (ip, cs2) := takeDigits cs1
  let (fp, cs3) :=
    match cs2 with
    | '.' :: cs2a => takeDigits cs2a
    | _ => ([], cs2)
  if ip.isEmpty && fp.isEmpty then 0
  else
    let mant : Nat := digitsToNat ip * 10 ^ fp.length + digitsToNat fp
    let e : Int :=
      match cs3 with
      | c :: cs3a =>
        if c = 'e' || c = 'E' then
          let (eneg, cs4) := parseSign cs3a
          let (ed, _) := takeDigits cs4
          if ed.isEmpty then 0
          else if eneg then -(digitsToNat ed : Int) else (digitsToNat ed : Int)
        else 0
      | [] => 0
    let num : Int := if neg then -(mant : Int) else (mant : Int)
    let eup : Nat := (max e 0).toNat
    let edown : Nat := (max (-e) 0).toNat
    ((num * 10 ^ eup : Int) : Rat) / ((10 ^ (fp.length + edown) : Nat) : Rat)

/-- Embeds unescape_state_base (json_unescape.hpp, via string_state and
key_state): the accumulator owns a private buffer of decoded text. -/
structure unescape_state_base where
  unescaped : String

/-- Appending one decoded unit to the accumulator buffer (the unescape
actions append to the unescaped member). -/
def appendUnit (acc : unescape_state_base) (u : String) : unescape_state_base :=
  ⟨acc.unescaped ++ u⟩

/-- Embeds string_state::success (json_build_two.cpp lines 90-94): the
decoded buffer becomes the result String value. -/
def string_state_success (acc : unescape_state_base) (s : json_state) :
    json_state :=
  { s with result := some (.string acc.unescaped) }

/-- Embeds key_state::success (json_build_two.cpp lines 149-153): the
decoded buffer is pushed onto the pending-key stack. -/
def key_state_success (acc : unescape_state_base) (s : json_state) :
    json_state :=
  { s with keys := acc.unescaped :: s.keys }

/-- Modelled from the spec: pegtl::change_state (change_state.hpp, not
under src/) constructs a fresh accumulator when the string-content
production is entered, lets the unescape actions append decoded units to
it while the production runs, and calls its success hook exactly once on
the production's successful exit; the accumulator is discarded
afterwards.  This function is that whole lifecycle for a string value. -/
def runStringContent (units : List String) (s : json_state) : json_state :=
  string_state_success (units.foldl appendUnit ⟨""⟩) s

/-- Modelled from the spec: the same change_state lifecycle for an object
key, ending in key_state::success. -/
def runKeyContent (units : List String) (s : json_state) : json_state :=
  key_state_success (units.foldl appendUnit ⟨""⟩) s

/-- The structural match events raised by the grammar engine that have
attached actions in json_build_two.cpp.  Leaf events carry the matched
raw text (number) or the decoded content handed over by the accumulator
(stringContent, keyContent). -/
inductive Event where
  | null
  | true_
  | false_
  | number (t : String)
  | stringContent (t : String)
  | keyContent (t : String)
  | arrayBegin
  | arrayElement
  | arrayEnd
  | objectBegin
  | objectElement
  | objectEnd

/-- Embeds the specialized action classes of json_build_two.cpp, one case
per production.  Cases that call back() on a possibly-empty vector return
none when that container precondition is violated (the error branch);
otherwise the mutated state is returned:
 - null / true_ / false_ (lines 39-64): result is replaced.
 - number (lines 66-78): result becomes Number(parseLongDouble text).
 - stringContent / keyContent: the accumulator success hooks (lines
   90-94 and 149-153) run with the decoded text.
 - arrayBegin (lines 103-110): push an empty array builder.
 - arrayElement (lines 112-119): move result into the top array builder;
   the moved-from result is null afterwards.
 - arrayEnd (lines 121-129): move the top array builder into result, pop.
 - objectBegin (lines 131-138): push an empty object builder.
 - objectElement (lines 162-170): assign the top pending key to result in
   the top object builder, pop the key; result is null afterwards.
 - objectEnd (lines 172-180): move the top object builder into result,
   pop. -/
def applyEvent : Event → json_state → Option json_state
  | .null, s => some { s with result := some .null }
  | .true_, s => some { s with result := some (.boolean true) }
  | .false_, s => some { s with result := some (.boolean false) }
  | .number t, s => some { s with result := some (.number (parseLongDouble t)) }
  | .stringContent t, s => some (string_state_success ⟨t⟩ s)
  | .keyContent t, s => some (key_state_success ⟨t⟩ s)
  | .arrayBegin, s => some { s with arrays := [] :: s.arrays }
  | .arrayElement, s =>
    match s.arrays with
    | [] => none
    | a :: rest =>
      some { s with arrays := (a ++ [s.result]) :: rest, result := none }
  | .arrayEnd, s =>
    match s.arrays with
    | [] => none
    | a :: rest => some { s with result := some (.array a), arrays := rest }
  | .objectBegin, s => some { s with objects := [] :: s.objects }
  | .objectElement, s =>
    match s.objects, s.keys with
    | o :: orest, k :: krest =>
      some { s with objects := mapInsert o k s.result :: orest,
                    keys := krest, result := none }
    | _, _ => none
  | .objectEnd, s =>
    match s.objects with
    | [] => none
    | o :: rest => some { s with result := some (.object o), objects := rest }

/-- Dispatching a whole event sequence, stopping at the first violated
handler precondition. -/
def run : List Event → json_state → Option json_state
  | [], s => some s
  | e :: es, s =>
    match applyEvent e s with
    | none => none
    | some s2 => run es s2

/-- Parse tree of a well-formed document as the grammar recognizes it:
number leaves keep the raw matched text, string and key leaves keep the
decoded text handed over by the accumulator. -/
inductive Doc where
  | null
  | boolean (b : Bool)
  | number (t : String)
  | string (s : String)
  | array (elems : List Doc)
  | object (members : List (String × Doc))

mutual

/-- Modelled from the spec: the grammar (tao/pegtl/contrib/json.hpp, not
under src/) raises the action events of a well-formed document in this
order (spec sections 4.3 and 6): each leaf raises its own event; an array
raises begin, then for each element the element's own events followed by
array-element, then end; an object raises begin, then for each member the
key-content event, the member value's events, then object-element, then
end. -/
def eventsOf : Doc → List Event
  | .null => [.null]
  | .boolean true => [.true_]
  | .boolean false => [.false_]
  | .number t => [.number t]
  | .string t => [.stringContent t]
  | .array ds => .arrayBegin :: (arrayEvents ds ++ [.arrayEnd])
  | .object ms => .objectBegin :: (objectEvents ms ++ [.objectEnd])

/-- Events of the elements of an array, in order. -/
def arrayEvents : List Doc → List Event
  | [] => []
  | d :: ds => eventsOf d ++ (.arrayElement :: arrayEvents ds)

/-- Events of the members of an object, in order. -/
def objectEvents : List (String × Doc) → List Event
  | [] => []
  | (k, d) :: ms => .keyContent k :: (eventsOf d ++ (.objectElement :: objectEvents ms))

end

mutual

/-- The document root value the builder assembles for a parse tree. -/
def valueOf : Doc → JsonValue
  | .null => .null
  | .boolean b => .boolean b
  | .number t => .number (parseLongDouble t)
  | .string t => .string t
  | .array ds => .array (arrayVals ds)
  | .object ms => .object (buildObj [] ms)

/-- Values of the elements of an array, in order. -/
def arrayVals : List Doc → List (Option JsonValue)
  | [] => []
  | d :: ds => some (valueOf d) :: arrayVals ds

/-- The object mapping obtained by inserting the member values in event
order on top of the accumulated mapping acc. -/
def buildObj (acc : List (String × Option JsonValue)) :
    List (String × Doc) → List (String × Option JsonValue)
  | [] => acc
  | (k, d) :: ms => buildObj (mapInsert acc k (some (valueOf d))) ms

end

/-- Modelled from the spec: a structured syntax failure of the grammar
engine, carrying the failure location (offset in code points) and an
expected-construct description (spec sections 4.4, 6 and 7; the engine
and the error messages of json_errors.hpp are not under src/). -/
structure ParseError where
  pos : Nat
  expected : String

/-- Skipping a run of whitespace, tracking the position. -/
def skipWs : List Char → Nat → List Char × Nat
  | c :: cs, p => if isWsChar c then skipWs cs (p + 1) else (c :: cs, p)
  | [], p => ([], p)

/-- Hexadecimal digit value, if any. -/
def hexVal (c : Char) : Option Nat :=
  if '0' ≤ c ∧ c ≤ '9' then some (c.toNat - 48)
  else if 'a' ≤ c ∧ c ≤ 'f' then some (c.toNat - 87)
  else if 'A' ≤ c ∧ c ≤ 'F' then some (c.toNat - 70)
  else none

/-- Modelled from the spec: the string production of the grammar
(tao/pegtl/contrib/json.hpp, not under src/) recognizes the characters of
a quoted string up to the closing quote, decoding literal characters and
the escape sequences; unescaped control characters and malformed escapes
are syntax failures.  Surrogate-pair recombination is simplified to a
single code-unit decode, which the claims do not depend on.  Returns the
decoded text, the rest of the input and the position one past the closing
quote. -/
def parseStringRest (fuel : Nat) (cs : List Char) (pos : Nat) (acc : String) :
    Except ParseError (String × List Char × Nat) :=
  match fuel with
  | 0 => .error ⟨pos, "resource exhausted"⟩
  | f + 1 =>
    match cs with
    | [] => .error ⟨pos, "closing quote"⟩
    | c :: rest =>
      if c = '"' then .ok (acc, rest, pos + 1)
      else if c = '\\' then
        match rest with
        | [] => .error ⟨pos + 1, "escape sequence"⟩
        | e :: rest2 =>
          if e = '"' then parseStringRest f rest2 (pos + 2) (acc.push '"')
          else if e = '\\' then parseStringRest f rest2 (pos + 2) (acc.push '\\')
          else if e = '/' then parseStringRest f rest2 (pos + 2) (acc.push '/')
          else if e = 'b' then parseStringRest f rest2 (pos + 2) (acc.push (Char.ofNat 8))
          else if e = 'f' then parseStringRest f rest2 (pos + 2) (acc.push (Char.ofNat 12))
          else if e = 'n' then parseStringRest f rest2 (pos + 2) (acc.push '\n')
          else if e = 'r' then parseStringRest f rest2 (pos + 2) (acc.push '\r')
          else if e = 't' then parseStringRest f rest2 (pos + 2) (acc.push '\t')
          else if e = 'u' then
            match rest2 with
            | h1 :: h2 :: h3 :: h4 :: rest3 =>
              match hexVal h1, hexVal h2, hexVal h3, hexVal h4 with
              | some a, some b, some c2, some d =>
                parseStringRest f rest3 (pos + 6)
                  (acc.push (Char.ofNat (((a * 16 + b) * 16 + c2) * 16 + d)))
              | _, _, _, _ => .error ⟨pos + 2, "four hexadecimal digits"⟩
            | _ => .error ⟨pos + 2, "four hexadecimal digits"⟩
          else .error ⟨pos + 1, "escape sequence"⟩
      else if c.toNat < 32 then .error ⟨pos, "string character"⟩
      else parseStringRest f rest (pos + 1) (acc.push c)

/-- Modelled from the spec: the number production of the grammar, JSON
shaped: optional minus, an integer part that is 0 or starts with a
nonzero digit, an optional fraction requiring at least one digit, and an
optional exponent requiring at least one digit.  Returns the raw matched
text, as handed to the number action. -/
def parseNumber (cs : List Char) (pos : Nat) :
    Except ParseError (String × List Char × Nat) :=
  let (negCs, cs1, pos1) :=
    match cs with
    | '-' :: r => (['-'], r, pos + 1)
    | _ => ([], cs, pos)
  match cs1 with
  | c :: r =>
    if c = '0' ∨ ('1' ≤ c ∧ c ≤ '9') then
      let (ip, r1) :=
        if c = '0' then ([c], r)
        else (c :: r.takeWhile Char.isDigit, r.dropWhile Char.isDigit)
      let pos2 := pos1 + ip.length
      let (fp, r2, pos3) :=
        match r1 with
        | '.' :: r1a =>
          match r1a.takeWhile Char.isDigit with
          | [] => ([' '], r1a, pos2)
          | ds => ('.' :: ds, r1a.dropWhile Char.isDigit,
                   pos2 + 1 + ds.length)
        | _ => ([], r1, pos2)
      if fp = [' '] then .error ⟨pos2 + 1, "digit"⟩
      else
        let (ep, r3, pos4) :=
          match r2 with
          | e :: r2a =>
            if e = 'e' ∨ e = 'E' then
              let (sgn, r2b, pos3b) :=
                match r2a with
                | '+' :: rb => ([e, '+'], rb, pos3 + 2)
                | '-' :: rb => ([e, '-'], rb, pos3 + 2)
                | _ => ([e], r2a, pos3 + 1)
              match r2b.takeWhile Char.isDigit with
              | [] => ([' '], r2b, pos3b)
              | ds => (sgn ++ ds, r2b.dropWhile Char.isDigit, pos3b + ds.length)
            else ([], r2, pos3)
          | [] => ([], r2, pos3)
        if ep = [' '] then .error ⟨pos4, "digit"⟩
        else .ok (String.mk (negCs ++ ip ++ fp ++ ep), r3, pos4)
    else .error ⟨pos, "value"⟩
  | [] => .error ⟨pos, "value"⟩

mutual

/-- Modelled from the spec: the value production of the grammar — a
choice of the null, true and false keywords, a string, an object, an
array, or a number, with trailing whitespace consumed after the matched
value.  On failure the error names the expected construct at the failure
position.  The fuel argument only bounds recursion depth; each nesting
level consumes at least one character, and exhaustion surfaces as the
resource-exhaustion failure mode of spec section 5. -/
def parseValue (fuel : Nat) (cs : List Char) (pos : Nat) :
    Except ParseError (Doc × List Char × Nat) :=
  match fuel with
  | 0 => .error ⟨pos, "resource exhausted"⟩
  | f + 1 =>
    match cs with
    | 'n' :: 'u' :: 'l' :: 'l' :: rest =>
      let (r, p) := skipWs rest (pos + 4)
      .ok (.null, r, p)
    | 't' :: 'r' :: 'u' :: 'e' :: rest =>
      let (r, p) := skipWs rest (pos + 4)
      .ok (.boolean true, r, p)
    | 'f' :: 'a' :: 'l' :: 's' :: 'e' :: rest =>
      let (r, p) := skipWs rest (pos + 5)
      .ok (.boolean false, r, p)
    | '"' :: rest =>
      match parseStringRest f rest (pos + 1) "" with
      | .error e => .error e
      | .ok (t, r, p) =>
        let (r1, p1) := skipWs r p
        .ok (.string t, r1, p1)
    | '[' :: rest =>
      let (r1, p1) := skipWs rest (pos + 1)
      match r1 with
      | ']' :: r2 =>
        let (r3, p3) := skipWs r2 (p1 + 1)
        .ok (.array [], r3, p3)
      | _ => parseArrayElems f r1 p1 []
    | '{' :: rest =>
      let (r1, p1) := skipWs rest (pos + 1)
      match r1 with
      | '}' :: r2 =>
        let (r3, p3) := skipWs r2 (p1 + 1)
        .ok (.object [], r3, p3)
      | _ => parseMembers f r1 p1 []
    | _ =>
      match parseNumber cs pos with
      | .error e => .error e
      | .ok (t, r, p) =>
        let (r1, p1) := skipWs r p
        .ok (.number t, r1, p1)

/-- Modelled from the spec: the element list of a non-empty array — a
value, then either a comma and further elements or the closing bracket,
anything else being a syntax failure at that position. -/
def parseArrayElems (fuel : Nat) (cs : List Char) (pos : Nat)
    (acc : List Doc) : Except ParseError (Doc × List Char × Nat) :=
  match fuel with
  | 0 => .error ⟨pos, "resource exhausted"⟩
  | f + 1 =>
    match parseValue f cs pos with
    | .error e => .error e
    | .ok (d, r, p) =>
      match r with
      | ',' :: r2 =>
        let (r3, p3) := skipWs r2 (p + 1)
        parseArrayElems f r3 p3 (acc ++ [d])
      | ']' :: r2 =>
        let (r3, p3) := skipWs r2 (p + 1)
        .ok (.array (acc ++ [d]), r3, p3)
      | _ => .error ⟨p, "comma or closing bracket"⟩

/-- Modelled from the spec: the member list of a non-empty object — a
quoted key, a colon, a value, then either a comma and further members or
the closing brace. -/
def parseMembers (fuel : Nat) (cs : List Char) (pos : Nat)
    (acc : List (String × Doc)) : Except ParseError (Doc × List Char × Nat) :=
  match fuel with
  | 0 => .error ⟨pos, "resource exhausted"⟩
  | f + 1 =>
    match cs with
    | '"' :: rest =>
      match parseStringRest f rest (pos + 1) "" with
      | .error e => .error e
      | .ok (k, r, p) =>
        let (r1, p1) := skipWs r p
        match r1 with
        | ':' :: r2 =>
          let (r3, p3) := skipWs r2 (p1 + 1)
          match parseValue f r3 p3 with
          | .error e => .error e
          | .ok (d, r4, p4) =>
            match r4 with
            | ',' :: r5 =>
              let (r6, p6) := skipWs r5 (p4 + 1)
              parseMembers f r6 p6 (acc ++ [(k, d)])
            | '}' :: r5 =>
              let (r6, p6) := skipWs r5 (p4 + 1)
              .ok (.object (acc ++ [(k, d)]), r6, p6)
            | _ => .error ⟨p4, "comma or closing brace"⟩
        | _ => .error ⟨p1, "colon"⟩
    | _ => .error ⟨pos, "key"⟩

end

/-- Modelled from the spec: the text production — leading whitespace,
then one value (which consumes its trailing whitespace).  Returns the
parse tree together with the unconsumed rest of the input and its
position. -/
def parseTopValue (s : String) : Except ParseError (Doc × List Char × Nat) :=
  let (cs, p) := skipWs s.data 0
  parseValue (2 * s.length + 2) cs p

/-- Embeds examples::grammar = pegtl::must< pegtl::json::text, pegtl::eof >
(json_build_two.cpp line 182), over the modelled engine: the text
production must be followed by the end of the input, otherwise the run is
a syntax failure at the position of the first unconsumed character. -/
def parseText (s : String) : Except ParseError Doc :=
  match parseTopValue s with
  | .error e => .error e
  | .ok (d, rest, p) =>
    if rest = [] then .ok d else .error ⟨p, "end of input"⟩

/-- Embeds main (json_build_two.cpp lines 186-201) over the modelled
engine: run the grammar with the actions on a fresh state; a syntax
failure propagates as-is and yields no value; on success the three stacks
are asserted empty and the result slot is the returned document root.
The internal-consistency branches correspond to the assertions and are
proven unreachable. -/
def build_document (s : String) : Except ParseError JsonValue :=
  match parseText s with
  | .error e => .error e
  | .ok d =>
    match run (eventsOf d) initState with
    | none => .error ⟨0, "internal consistency failure"⟩
    | some st =>
      if st.keys.isEmpty && st.arrays.isEmpty && st.objects.isEmpty then
        match st.result with
        | some v => .ok v
        | none => .error ⟨0, "internal consistency failure"⟩
      else .error ⟨0, "internal consistency failure"⟩

theorem run_append (xs ys : List Event) (s : json_state) :
    run (xs ++ ys) s =
      match run xs s with
      | none => none
      | some s2 => run ys s2 := by
  induction xs generalizing s with
  | nil => rfl
  | cons e xs ih =>
    simp only [List.cons_append, run]
    cases applyEvent e s with
    | none => rfl
    | some s2 => exact ih s2

mutual

/-- Running the events of a complete value replaces the result slot with
that value and leaves the three stacks untouched. -/
theorem run_eventsOf : ∀ (d : Doc) (r : Option JsonValue) (k : List String)
    (a : List (List (Option JsonValue)))
    (o : List (List (String × Option JsonValue))),
    run (eventsOf d) ⟨r, k, a, o⟩ = some ⟨some (valueOf d), k, a, o⟩
  | .null, r, k, a, o => by
    simp [eventsOf, run, applyEvent, valueOf]
  | .boolean true, r, k, a, o => by
    simp [eventsOf, run, applyEvent, valueOf]
  | .boolean false, r, k, a, o => by
    simp [eventsOf, run, applyEvent, valueOf]
  | .number t, r, k, a, o => by
    simp [eventsOf, run, applyEvent, valueOf]
  | .string t, r, k, a, o => by
    simp [eventsOf, run, applyEvent, valueOf, string_state_success]
  | .array ds, r, k, a, o => by
    have h := run_arrayTail ds r k [] a o
    simp only [eventsOf, run, applyEvent]
    simpa [valueOf] using h
  | .object ms, r, k, a, o => by
    have h := run_objectTail ms r k a [] o
    simp only [eventsOf, run, applyEvent]
    simpa [valueOf] using h

/-- Running the element events of an array followed by the array-end
event, from a state whose top array builder holds top, yields the Array
of top extended by the element values, popped into the result slot. -/
theorem run_arrayTail : ∀ (ds : List Doc) (r : Option JsonValue)
    (k : List String) (top : List (Option JsonValue))
    (ar : List (List (Option JsonValue)))
    (o : List (List (String × Option JsonValue))),
    run (arrayEvents ds ++ [.arrayEnd]) ⟨r, k, top :: ar, o⟩ =
      some ⟨some (.array (top ++ arrayVals ds)), k, ar, o⟩
  | [], r, k, top, ar, o => by
    simp [arrayEvents, arrayVals, run, applyEvent]
  | d :: ds, r, k, top, ar, o => by
    have h1 := run_eventsOf d r k (top :: ar) o
    have h2 := run_arrayTail ds none k (top ++ [some (valueOf d)]) ar o
    simp only [arrayEvents, List.append_assoc, List.cons_append]
    rw [run_append, h1]
    simp only [run, applyEvent]
    simpa [arrayVals] using h2

/-- Running the member events of an object followed by the object-end
event, from a state whose top object builder holds acc, yields the Object
of acc extended by the members in event order, popped into the result
slot; the pending-key stack is restored. -/
theorem run_objectTail : ∀ (ms : List (String × Doc)) (r : Option JsonValue)
    (k : List String) (a : List (List (Option JsonValue)))
    (acc : List (String × Option JsonValue))
    (orest : List (List (String × Option JsonValue))),
    run (objectEvents ms ++ [.objectEnd]) ⟨r, k, a, acc :: orest⟩ =
      some ⟨some (.object (buildObj acc ms)), k, a, orest⟩
  | [], r, k, a, acc, orest => by
    simp [objectEvents, buildObj, run, applyEvent]
  | (key, d) :: ms, r, k, a, acc, orest => by
    have h1 := run_eventsOf d r (key :: k) a (acc :: orest)
    have h2 := run_objectTail ms none k a (mapInsert acc key (some (valueOf d))) orest
    simp only [objectEvents, List.append_assoc, List.cons_append]
    simp only [run, applyEvent, key_state_success]
    rw [run_append, h1]
    simp only [run, applyEvent]
    simpa [buildObj] using h2

end

theorem mapLookup_mapInsert_self (m : List (String × Option JsonValue))
    (k : String) (v : Option JsonValue) :
    mapLookup k (mapInsert m k v) = some v := by
  induction m with
  | nil =>
    rw [mapInsert, mapLookup, if_pos rfl]
  | cons e rest ih =>
    obtain ⟨k0, v0⟩ := e
    rw [mapInsert]
    by_cases h : k0 = k
    · rw [if_pos h, mapLookup, if_pos h]
    · rw [if_neg h, mapLookup, if_neg h]
      exact ih

theorem mapLookup_mapInsert_ne (m : List (String × Option JsonValue))
    (k k' : String) (v : Option JsonValue) (hne : k' ≠ k) :
    mapLookup k (mapInsert m k' v) = mapLookup k m := by
  induction m with
  | nil =>
    rw [mapInsert]
    simp [mapLookup, hne]
  | cons e rest ih =>
    obtain ⟨k0, v0⟩ := e
    rw [mapInsert]
    by_cases h : k0 = k'
    · have h3 : k0 ≠ k := by rw [h]; exact hne
      rw [if_pos h]
      simp only [mapLookup, if_neg h3]
    · rw [if_neg h]
      by_cases h2 : k0 = k
      · simp only [mapLookup, if_pos h2]
      · simp only [mapLookup, if_neg h2]
        exact ih

theorem mem_keys_mapInsert (m : List (String × Option JsonValue))
    (k x : String) (v : Option JsonValue) :
    x ∈ (mapInsert m k v).map Prod.fst ↔ x = k ∨ x ∈ m.map Prod.fst := by
  induction m with
  | nil => simp [mapInsert]
  | cons e rest ih =>
    obtain ⟨k0, v0⟩ := e
    by_cases h : k0 = k
    · subst h
      simp [mapInsert]
    · simp [mapInsert, h, ih]
      tauto

theorem nodup_keys_mapInsert (m : List (String × Option JsonValue))
    (k : String) (v : Option JsonValue)
    (hm : (m.map Prod.fst).Nodup) :
    ((mapInsert m k v).map Prod.fst).Nodup := by
  induction m with
  | nil => simp [mapInsert]
  | cons e rest ih =>
    obtain ⟨k0, v0⟩ := e
    simp only [List.map_cons, List.nodup_cons] at hm
    by_cases h : k0 = k
    · subst h
      have he : mapInsert ((k0, v0) :: rest) k0 v = (k0, v) :: rest := by
        rw [mapInsert, if_pos rfl]
      rw [he]
      simp only [List.map_cons, List.nodup_cons]
      exact hm
    · have he : mapInsert ((k0, v0) :: rest) k v =
          (k0, v0) :: mapInsert rest k v := by
        rw [mapInsert, if_neg h]
      rw [he]
      simp only [List.map_cons, List.nodup_cons]
      refine ⟨?_, ih hm.2⟩
      rw [mem_keys_mapInsert]
      rintro (rfl | hk)
      · exact h rfl
      · exact hm.1 hk

theorem mapLookup_buildObj (ms : List (String × Doc))
    (acc : List (String × Option JsonValue)) (k : String) :
    mapLookup k (buildObj acc ms) =
      match (ms.filter (fun e => e.1 == k)).getLast? with
      | some e => some (some (valueOf e.2))
      | none => mapLookup k acc := by
  induction ms generalizing acc with
  | nil => simp [buildObj]
  | cons e rest ih =>
    obtain ⟨k0, d⟩ := e
    rw [buildObj, ih]
    by_cases h : k0 = k
    · subst h
      cases hf : rest.filter (fun e => e.1 == k0) with
      | nil => simp [hf, List.filter_cons, mapLookup_mapInsert_self]
      | cons x xs =>
        have hlast : ∃ e, (x :: xs).getLast? = some e := by
          cases h2 : (x :: xs).getLast? with
          | none => simp [List.getLast?_eq_none_iff] at h2
          | some e => exact ⟨e, rfl⟩
        obtain ⟨e, he⟩ := hlast
        simp [hf, List.filter_cons, he]
    · cases hf : rest.filter (fun e => e.1 == k) with
      | nil => simp [hf, List.filter_cons, h, mapLookup_mapInsert_ne _ _ _ _ h]
      | cons x xs =>
        have hlast : ∃ e, (x :: xs).getLast? = some e := by
          cases h2 : (x :: xs).getLast? with
          | none => simp [List.getLast?_eq_none_iff] at h2
          | some e => exact ⟨e, rfl⟩
        obtain ⟨e, he⟩ := hlast
        simp [hf, List.filter_cons, h, he]

theorem mem_keys_buildObj (ms : List (String × Doc))
    (acc : List (String × Option JsonValue)) (x : String) :
    x ∈ (buildObj acc ms).map Prod.fst ↔
      x ∈ ms.map Prod.fst ∨ x ∈ acc.map Prod.fst := by
  induction ms generalizing acc with
  | nil => simp [buildObj]
  | cons e rest ih =>
    obtain ⟨k0, d⟩ := e
    rw [buildObj, ih]
    rw [mem_keys_mapInsert]
    simp only [List.map_cons, List.mem_cons]
    tauto

theorem nodup_keys_buildObj (ms : List (String × Doc))
    (acc : List (String × Option JsonValue))
    (hacc : (acc.map Prod.fst).Nodup) :
    ((buildObj acc ms).map Prod.fst).Nodup := by
  induction ms generalizing acc with
  | nil => simpa [buildObj] using hacc
  | cons e rest ih =>
    obtain ⟨k0, d⟩ := e
    rw [buildObj]
    exact ih _ (nodup_keys_mapInsert _ _ _ hacc)

theorem filter_key_eq_nil_of_not_mem (m : List (String × Option JsonValue))
    (k : String) (h : k ∉ m.map Prod.fst) :
    m.filter (fun e => e.1 == k) = [] := by
  induction m with
  | nil => simp
  | cons e rest ih =>
    obtain ⟨k0, v0⟩ := e
    simp only [List.map_cons, List.mem_cons, not_or] at h
    have hne : ¬ (k0 = k) := fun hk => h.1 hk.symm
    simp [List.filter_cons, hne, ih h.2]

theorem filter_key_length_one (m : List (String × Option JsonValue))
    (k : String) (hnd : (m.map Prod.fst).Nodup) (hk : k ∈ m.map Prod.fst) :
    (m.filter (fun e => e.1 == k)).length = 1 := by
  induction m with
  | nil => simp at hk
  | cons e rest ih =>
    obtain ⟨k0, v0⟩ := e
    simp only [List.map_cons, List.nodup_cons] at hnd
    simp only [List.map_cons, List.mem_cons] at hk
    by_cases h : k0 = k
    · subst h
      have hnil := filter_key_eq_nil_of_not_mem rest k0 hnd.1
      have he : ((k0, v0) :: rest).filter (fun e => e.1 == k0) = [(k0, v0)] := by
        rw [List.filter_cons]
        simp [hnil]
      rw [he]
      rfl
    · have hk2 : k ∈ rest.map Prod.fst := by
        rcases hk with hk | hk
        · exact absurd hk.symm h
        · exact hk
      simp [List.filter_cons, h, ih hnd.2 hk2]

theorem arrayVals_map (ds : List Doc) :
    arrayVals ds = ds.map (fun d => some (valueOf d)) := by
  induction ds with
  | nil => rfl
  | cons d ds ih => rw [arrayVals, ih, List.map_cons]

theorem foldl_appendUnit (units : List String) (a : String) :
    (units.foldl appendUnit ⟨a⟩).unescaped =
      units.foldl (fun r u => r ++ u) a := by
  induction units generalizing a with
  | nil => rfl
  | cons u us ih => simpa [appendUnit] using ih (a ++ u)

/-- C1: for every object literal containing the same key more than once,
processing the object-element events in order leaves the built Object
with exactly one entry for that key, holding the value from the last
occurrence of the key in event order. -/
theorem object_duplicate_key_last_write_wins
    (ms : List (String × Doc)) (k : String)
    (hdup : 1 < ((ms.map Prod.fst).count k)) :
    ∃ data, run (eventsOf (.object ms)) initState =
        some ⟨some (.object data), [], [], []⟩ ∧
      (data.filter (fun e => e.1 == k)).length = 1 ∧
      mapLookup k data =
        ((ms.filter (fun e => e.1 == k)).getLast?).map
          (fun e => some (valueOf e.2)) := by
  have hmem : k ∈ ms.map Prod.fst :=
    List.count_pos_iff.mp (Nat.lt_of_lt_of_le Nat.zero_lt_one (Nat.le_of_lt hdup))
  refine ⟨buildObj [] ms, ?_, ?_, ?_⟩
  · have h := run_eventsOf (.object ms) none [] [] []
    simpa [valueOf, initState] using h
  · refine filter_key_length_one _ _ (nodup_keys_buildObj ms [] (by simp)) ?_
    rw [mem_keys_buildObj]
    exact Or.inl hmem
  · rw [mapLookup_buildObj]
    cases hf : (ms.filter (fun e => e.1 == k)).getLast? with
    | none => simp [mapLookup]
    | some e => simp

theorem object_duplicate_key_last_write_wins_witness :
    1 < (([("a", Doc.null), ("a", Doc.boolean true)].map Prod.fst).count "a") ∧
    ∃ data,
      run (eventsOf (.object [("a", Doc.null), ("a", Doc.boolean true)]))
          initState = some ⟨some (.object data), [], [], []⟩ ∧
      (data.filter (fun e => e.1 == "a")).length = 1 ∧
      mapLookup "a" data =
        (([("a", Doc.null), ("a", Doc.boolean true)].filter
            (fun e => e.1 == "a")).getLast?).map (fun e => some (valueOf e.2)) :=
  ⟨by decide, object_duplicate_key_last_write_wins _ "a" (by decide)⟩

/-- C2: the array-element handler moves the result into the top array
builder and clears the result, the array-end handler pops that builder
into the result, and running the events of a balanced array sequence
yields the Array of the element values in event order. -/
theorem array_events_assemble_in_order :
    (∀ (r : Option JsonValue) (k : List String)
        (top : List (Option JsonValue)) (ar : List (List (Option JsonValue)))
        (o : List (List (String × Option JsonValue))),
      applyEvent .arrayElement ⟨r, k, top :: ar, o⟩ =
        some ⟨none, k, (top ++ [r]) :: ar, o⟩) ∧
    (∀ (r : Option JsonValue) (k : List String)
        (top : List (Option JsonValue)) (ar : List (List (Option JsonValue)))
        (o : List (List (String × Option JsonValue))),
      applyEvent .arrayEnd ⟨r, k, top :: ar, o⟩ =
        some ⟨some (.array top), k, ar, o⟩) ∧
    (∀ ds : List Doc,
      run (eventsOf (.array ds)) initState =
        some ⟨some (.array (ds.map (fun d => some (valueOf d)))), [], [], []⟩) := by
  refine ⟨fun r k top ar o => rfl, fun r k top ar o => rfl, fun ds => ?_⟩
  have h := run_eventsOf (.array ds) none [] [] []
  rw [← arrayVals_map]
  simpa [valueOf, initState] using h

/-- C3: for every well-formed document, after the successful run all
three stacks are empty and the result slot holds the document root, which
the driver returns. -/
theorem wellformed_run_leaves_empty_stacks :
    (∀ d : Doc,
      run (eventsOf d) initState = some ⟨some (valueOf d), [], [], []⟩) ∧
    (∀ (s : String) (d : Doc), parseText s = .ok d →
      build_document s = .ok (valueOf d)) := by
  constructor
  · intro d
    exact run_eventsOf d none [] [] []
  · intro s d h
    have h2 : run (eventsOf d) initState = some ⟨some (valueOf d), [], [], []⟩ :=
      run_eventsOf d none [] [] []
    simp [build_document, h, h2, List.isEmpty]

theorem wellformed_run_leaves_empty_stacks_witness :
    parseText "[]" = .ok (.array []) ∧
    build_document "[]" = .ok (valueOf (.array [])) :=
  ⟨rfl, wellformed_run_leaves_empty_stacks.2 "[]" (.array []) rfl⟩

/-- C4: an array-end, object-end, array-element or object-element event
arriving while its required stack is empty violates the handler's
container precondition, embedded as the error branch; and for the
balanced event sequence of any well-formed document that branch is never
taken. -/
theorem unbalanced_event_is_precondition_violation :
    (∀ s : json_state, s.arrays = [] →
      applyEvent .arrayElement s = none ∧ applyEvent .arrayEnd s = none) ∧
    (∀ s : json_state, s.objects = [] →
      applyEvent .objectElement s = none ∧ applyEvent .objectEnd s = none) ∧
    (∀ s : json_state, s.keys = [] → applyEvent .objectElement s = none) ∧
    (∀ d : Doc, run (eventsOf d) initState ≠ none) := by
  refine ⟨?_, ?_, ?_, ?_⟩
  · rintro ⟨r, k, a, o⟩ h
    subst h
    exact ⟨rfl, rfl⟩
  · rintro ⟨r, k, a, o⟩ h
    subst h
    constructor
    · simp [applyEvent]
    · rfl
  · rintro ⟨r, k, a, o⟩ h
    subst h
    cases o with
    | nil => rfl
    | cons x xs => rfl
  · intro d
    have h := run_eventsOf d none [] [] []
    simp [initState, h]

theorem unbalanced_event_is_precondition_violation_witness :
    applyEvent .arrayElement initState = none ∧
    applyEvent .arrayEnd initState = none ∧
    applyEvent .objectElement initState = none ∧
    applyEvent .objectEnd initState = none ∧
    run (eventsOf .null) initState ≠ none :=
  ⟨(unbalanced_event_is_precondition_violation.1 initState rfl).1,
   (unbalanced_event_is_precondition_violation.1 initState rfl).2,
   (unbalanced_event_is_precondition_violation.2.1 initState rfl).1,
   (unbalanced_event_is_precondition_violation.2.1 initState rfl).2,
   unbalanced_event_is_precondition_violation.2.2.2 .null⟩

/-- C5: a string or key production runs a fresh accumulator created at
production entry, and on successful exit the decoded buffer goes to
exactly one destination: the result slot as a String value for string
content, a push onto the pending-key stack for key content; nothing else
of the state changes, and the accumulator itself is discarded. -/
theorem string_and_key_production_routing (units : List String)
    (s : json_state) :
    runStringContent units s =
      { s with result := some (.string (String.join units)) } ∧
    runKeyContent units s =
      { s with keys := String.join units :: s.keys } := by
  have h : (units.foldl appendUnit ⟨""⟩).unescaped = String.join units := by
    rw [foldl_appendUnit]
    rfl
  constructor
  · rw [runStringContent, string_state_success, h]
  · rw [runKeyContent, key_state_success, h]

/-- C6: a syntax failure of the grammar engine propagates verbatim as a
structured failure with location and expected construct, with no value
returned; for the malformed document of spec example 5 the failure is at
the position of the missing member value. -/
theorem syntax_failure_propagates_structured :
    (∀ (s : String) (e : ParseError), parseText s = .error e →
      build_document s = .error e) ∧
    build_document "\x7b\"a\": \x7d" = .error ⟨6, "value"⟩ := by
  constructor
  · intro s e h
    simp [build_document, h]
  · rfl

theorem syntax_failure_propagates_structured_witness :
    parseText "[" = .error ⟨1, "value"⟩ ∧
    build_document "[" = .error ⟨1, "value"⟩ :=
  ⟨rfl, syntax_failure_propagates_structured.1 "[" ⟨1, "value"⟩ rfl⟩

/-- C7: the number handler is total on the matched text: it never raises
an error, and it always sets the result slot to Number of the lenient
best-effort floating parse of the text. -/
theorem number_action_total_and_lenient (t : String) (s : json_state) :
    applyEvent (.number t) s =
      some { s with result := some (.number (parseLongDouble t)) } := rfl

/-- C8: the null handler sets the result slot to Null and the true and
false handlers set it to Boolean true and Boolean false, replacing the
previous result. -/
theorem literal_actions_set_result (s : json_state) :
    applyEvent .null s = some { s with result := some .null } ∧
    applyEvent .true_ s = some { s with result := some (.boolean true) } ∧
    applyEvent .false_ s = some { s with result := some (.boolean false) } :=
  ⟨rfl, rfl, rfl⟩

/-- C9: the top-level grammar requires end of input after the text
production: whenever the text production succeeds on a proper prefix and
leaves unconsumed characters, the run fails with a syntax failure at the
first unconsumed character instead of accepting the prefix. -/
theorem grammar_requires_eof (s : String) (d : Doc) (rest : List Char)
    (p : Nat) (hok : parseTopValue s = .ok (d, rest, p)) (hne : rest ≠ []) :
    parseText s = .error ⟨p, "end of input"⟩ ∧
    build_document s = .error ⟨p, "end of input"⟩ := by
  have h1 : parseText s = .error ⟨p, "end of input"⟩ := by
    simp [parseText, hok, hne]
  exact ⟨h1, by simp [build_document, h1]⟩

theorem grammar_requires_eof_witness :
    parseTopValue "null x" = .ok (.null, ['x'], 5) ∧
    build_document "null x" = .error ⟨5, "end of input"⟩ :=
  ⟨rfl, (grammar_requires_eof "null x" .null ['x'] 5 rfl (by simp)).2⟩

/-- C10: frame conditions of the handlers: the literal, number and
string-content handlers leave the three stacks unchanged; the array
handlers leave the object and pending-key stacks unchanged; the object
begin and end handlers leave the array and pending-key stacks unchanged;
the key-content completion changes only the pending-key stack. -/
theorem handler_frame_conditions :
    (∀ (e : Event), e = .null ∨ e = .true_ ∨ e = .false_ ∨
        (∃ t, e = .number t) ∨ (∃ t, e = .stringContent t) →
      ∀ (r : Option JsonValue) (k : List String)
        (a : List (List (Option JsonValue)))
        (o : List (List (String × Option JsonValue))),
      ∃ r2, applyEvent e ⟨r, k, a, o⟩ = some ⟨r2, k, a, o⟩) ∧
    (∀ (r : Option JsonValue) (k : List String)
        (a : List (List (Option JsonValue)))
        (o : List (List (String × Option JsonValue))),
      ∃ r2 a2, applyEvent .arrayBegin ⟨r, k, a, o⟩ = some ⟨r2, k, a2, o⟩) ∧
    (∀ (r : Option JsonValue) (k : List String)
        (top : List (Option JsonValue)) (ar : List (List (Option JsonValue)))
        (o : List (List (String × Option JsonValue))),
      (∃ r2 a2, applyEvent .arrayElement ⟨r, k, top :: ar, o⟩ =
        some ⟨r2, k, a2, o⟩) ∧
      (∃ r2 a2, applyEvent .arrayEnd ⟨r, k, top :: ar, o⟩ =
        some ⟨r2, k, a2, o⟩)) ∧
    (∀ (r : Option JsonValue) (k : List String)
        (a : List (List (Option JsonValue)))
        (o : List (List (String × Option JsonValue))),
      ∃ r2 o2, applyEvent .objectBegin ⟨r, k, a, o⟩ = some ⟨r2, k, a, o2⟩) ∧
    (∀ (r : Option JsonValue) (k : List String)
        (a : List (List (Option JsonValue)))
        (ob : List (String × Option JsonValue))
        (orest : List (List (String × Option JsonValue))),
      ∃ r2 o2, applyEvent .objectEnd ⟨r, k, a, ob :: orest⟩ =
        some ⟨r2, k, a, o2⟩) ∧
    (∀ (t : String) (r : Option JsonValue) (k : List String)
        (a : List (List (Option JsonValue)))
        (o : List (List (String × Option JsonValue))),
      ∃ k2, applyEvent (.keyContent t) ⟨r, k, a, o⟩ = some ⟨r, k2, a, o⟩) := by
  refine ⟨?_, ?_, ?_, ?_, ?_, ?_⟩
  · rintro e (rfl | rfl | rfl | ⟨t, rfl⟩ | ⟨t, rfl⟩) r k a o
    · exact ⟨_, rfl⟩
    · exact ⟨_, rfl⟩
    · exact ⟨_, rfl⟩
    · exact ⟨_, rfl⟩
    · exact ⟨_, rfl⟩
  · intro r k a o
    exact ⟨r, [] :: a, rfl⟩
  · intro r k top ar o
    exact ⟨⟨none, (top ++ [r]) :: ar, rfl⟩, ⟨some (.array top), ar, rfl⟩⟩
  · intro r k a o
    exact ⟨r, [] :: o, rfl⟩
  · intro r k a ob orest
    exact ⟨some (.object ob), orest, rfl⟩
  · intro t r k a o
    exact ⟨t :: k, rfl⟩

theorem handler_frame_conditions_witness :
    ∃ r2, applyEvent .null initState = some ⟨r2, [], [], []⟩ :=
  handler_frame_conditions.1 .null (Or.inl rfl) none [] [] []

end Examples
